import Mathlib

/- Verification development for the feature-extraction pipeline of
   `data_collector.py` (AI Firewall Classification System).

   The Python source is shallowly embedded: strings are `List Char`,
   Python floats are `ℚ`, a fallible computation (one that can raise)
   returns an `Option`, and the specific regular expressions used by the
   parsers are embedded as deterministic scanners that mirror the
   leftmost-match / greedy / lazy semantics of `re.search` and
   `re.findall` for those concrete patterns. -/

namespace DataCollector

/-- ASCII digit class, modelling `\d` on the ASCII probe output. -/
def isDigitCh (c : Char) : Bool := c.isDigit

/-- Python regex whitespace class `\s`. -/
def isPySpace (c : Char) : Bool :=
  c = ' ' || c = '\t' || c = '\n' || c = '\r' || c = Char.ofNat 11 || c = Char.ofNat 12

/-- Character class `[\d.]` used by the round-trip-time patterns. -/
def isDigDot (c : Char) : Bool := c.isDigit || c = '.'

/-- What `R` matches under IGNORECASE: an `r` of either case. -/
def isRChar (c : Char) : Bool := c.toLower == 'r'

/-- Decimal value of a digit string (the effect of Python `int` on a `\d+` capture). -/
def digitsToNat (l : List Char) : Nat :=
  l.foldl (fun acc c => 10 * acc + (c.toNat - 48)) 0

/-- Value of a Python float literal made of `intDigits . fracDigits`. -/
def qOfDigits (intPart fracPart : List Char) : ℚ :=
  (digitsToNat intPart : ℚ) + (digitsToNat fracPart : ℚ) / ((10 : ℚ) ^ fracPart.length)

/-- Does the text start with the literal pattern (exact match)? -/
def startsWithLit : List Char → List Char → Bool
  | [], _ => true
  | _ :: _, [] => false
  | p :: ps, c :: cs => p = c && startsWithLit ps cs

/-- Does the text start with the (lowercase) literal pattern, case-insensitively
    (the effect of `re.IGNORECASE` on a literal)? -/
def startsWithCI : List Char → List Char → Bool
  | [], _ => true
  | _ :: _, [] => false
  | p :: ps, c :: cs => p = c.toLower && startsWithCI ps cs

/-- Substring test (Python `in` on strings). -/
def containsLit (pat : List Char) : List Char → Bool
  | [] => pat.isEmpty
  | c :: rest => startsWithLit pat (c :: rest) || containsLit pat rest

/-- First char is a digit. -/
def headDigit : List Char → Bool
  | [] => false
  | c :: _ => isDigitCh c

/-! ## hping3 reply counters (`parse_hping3`, `parse_hping3_rst`) -/

def flagsLit : List Char := ['f', 'l', 'a', 'g', 's', '=']
def lenLit : List Char := ['l', 'e', 'n', '=']
def bytesFromLit : List Char := ['b', 'y', 't', 'e', 's', ' ', 'f', 'r', 'o', 'm']

/-- Number of non-overlapping matches of `flags=|len=\d+` (IGNORECASE), scanning
    left to right as `re.findall` does: at each position the alternatives are
    tried in order, a match is consumed whole, otherwise the scan advances one
    character. -/
def countFlagsLenAux : List Char → Nat
  | [] => 0
  | c :: rest =>
    if startsWithCI flagsLit (c :: rest) then
      1 + countFlagsLenAux (List.drop 5 rest)
    else if startsWithCI lenLit (c :: rest) && headDigit (List.drop 3 rest) then
      1 + countFlagsLenAux (List.drop (3 + (List.takeWhile isDigitCh (List.drop 3 rest)).length) rest)
    else
      countFlagsLenAux rest
termination_by l => l.length
decreasing_by
  · simp only [List.length_drop, List.length_cons]; omega
  · simp only [List.length_drop, List.length_cons]; omega
  · simp only [List.length_cons]; omega

theorem length_takeWhile_le' (p : Char → Bool) (l : List Char) :
    (List.takeWhile p l).length ≤ l.length := by
  induction l with
  | nil => simp
  | cons c rest ih =>
    by_cases hc : p c
    · simp only [List.takeWhile_cons_of_pos hc, List.length_cons]
      omega
    · simp [List.takeWhile_cons_of_neg hc]

theorem length_dropWhile_le' (p : Char → Bool) (l : List Char) :
    (List.dropWhile p l).length ≤ l.length := by
  induction l with
  | nil => simp
  | cons c rest ih =>
    by_cases hc : p c
    · simp only [List.dropWhile_cons_of_pos hc, List.length_cons]
      omega
    · simp [List.dropWhile_cons_of_neg hc]

/-- One attempted match of `\s*\d+\s+bytes from` at an anchored position,
    returning the remainder after the match. The character classes of
    consecutive pieces are disjoint, so greedy matching is deterministic. -/
def matchBF (l : List Char) : Option (List Char) :=
  let l1 := List.dropWhile isPySpace l
  let ds := List.takeWhile isDigitCh l1
  if ds.isEmpty then none
  else
    let l2 := List.drop ds.length l1
    let ws := List.takeWhile isPySpace l2
    if ws.isEmpty then none
    else
      let l3 := List.drop ws.length l2
      if startsWithLit bytesFromLit l3 then some (List.drop 10 l3) else none

theorem matchBF_length_lt (l rem : List Char) (h : matchBF l = some rem) :
    rem.length < l.length := by
  simp only [matchBF] at h
  split_ifs at h with h1 h2 h3
  rw [Option.some.injEq] at h
  subst h
  have hd : (List.dropWhile isPySpace l).length ≤ l.length :=
    length_dropWhile_le' _ _
  have hne : List.takeWhile isDigitCh (List.dropWhile isPySpace l) ≠ [] := by
    intro hh
    rw [hh] at h1
    simp at h1
  have ht : 1 ≤ (List.takeWhile isDigitCh (List.dropWhile isPySpace l)).length := by
    have := List.length_pos.mpr hne
    omega
  have htw : (List.takeWhile isDigitCh (List.dropWhile isPySpace l)).length ≤
      (List.dropWhile isPySpace l).length := length_takeWhile_le' _ _
  simp only [List.length_drop]
  omega

/-- Number of non-overlapping matches of `^\s*\d+\s+bytes from` under
    `re.MULTILINE`: the boolean flag records whether the current position is at
    the start of the string or just after a newline. -/
def countBFAux : List Char → Bool → Nat
  | [], _ => 0
  | c :: rest, atStart =>
    if atStart then
      match h : matchBF (c :: rest) with
      | some rem => 1 + countBFAux rem false
      | none => countBFAux rest (c == '\n')
    else countBFAux rest (c == '\n')
termination_by l _ => l.length
decreasing_by
  · exact matchBF_length_lt _ _ h
  · simp only [List.length_cons]; omega
  · simp only [List.length_cons]; omega

/-- Remainder of the text after its last `r`/`R` (what the greedy `.*R` of
    `flags=.*R` leaves unconsumed within a line), `none` when there is none. -/
def afterLastR : List Char → Option (List Char)
  | [] => none
  | c :: rest =>
    match afterLastR rest with
    | some r => some r
    | none => if isRChar c then some rest else none

theorem afterLastR_length_lt (l rem : List Char) (h : afterLastR l = some rem) :
    rem.length < l.length := by
  induction l with
  | nil => simp [afterLastR] at h
  | cons c rest ih =>
    unfold afterLastR at h
    rcases ha : afterLastR rest with _ | r
    · rw [ha] at h
      simp only at h
      by_cases hc : isRChar c = true
      · simp only [hc, if_true, Option.some.injEq] at h
        subst h; simp
      · simp [hc] at h
    · rw [ha] at h
      simp only [Option.some.injEq] at h
      subst h
      have := ih ha
      simp only [List.length_cons]
      omega

/-- Number of non-overlapping matches of `flags=.*R` (IGNORECASE): a match
    starts at a `flags=` and the greedy `.*` stops just before the last `r`/`R`
    of the same line; scanning resumes right after that character. -/
def countFlagsRAux : List Char → Nat
  | [] => 0
  | c :: rest =>
    if startsWithCI flagsLit (c :: rest) then
      match h : afterLastR (List.takeWhile (fun ch => !(ch == '\n')) (List.drop 5 rest)) with
      | some rem =>
          1 + countFlagsRAux
            (rem ++ List.drop
              (List.takeWhile (fun ch => !(ch == '\n')) (List.drop 5 rest)).length
              (List.drop 5 rest))
      | none => countFlagsRAux rest
    else countFlagsRAux rest
termination_by l => l.length
decreasing_by
  · have h1 := afterLastR_length_lt _ _ h
    have h2 : (List.takeWhile (fun ch => !(ch == '\n')) (List.drop 5 rest)).length ≤
        (List.drop 5 rest).length := length_takeWhile_le' _ _
    simp only [List.length_append, List.length_drop, List.length_cons]
    simp only [List.length_drop] at h2
    omega
  · simp only [List.length_cons]; omega
  · simp only [List.length_cons]; omega

/-- Embedding of `parse_hping3`: response ratio from counting reply markers,
    with the `^\s*\d+\s+bytes from` fallback, divided by the sent count when it
    is positive and clamped into `[0, 1]`. -/
def parse_hping3 (output : Option String) (sent_count : ℤ) : ℚ :=
  match output with
  | none => 0
  | some s =>
    if s.data.isEmpty then 0
    else
      let c1 := countFlagsLenAux s.data
      let reply_count := if c1 = 0 then countBFAux s.data true else c1
      let ratio : ℚ := if sent_count > 0 then (reply_count : ℚ) / (sent_count : ℚ) else 0
      max 0 (min 1 ratio)

/-- Embedding of `parse_hping3_rst`: RST ratio from counting `flags=.*R`
    matches, divided by the sent count when positive and clamped into `[0, 1]`. -/
def parse_hping3_rst (output : Option String) (sent_count : ℤ) : ℚ :=
  match output with
  | none => 0
  | some s =>
    if s.data.isEmpty then 0
    else
      let rst_count := countFlagsRAux s.data
      let ratio : ℚ := if sent_count > 0 then (rst_count : ℚ) / (sent_count : ℚ) else 0
      max 0 (min 1 ratio)

theorem clamp_mem_unit (r : ℚ) : 0 ≤ max 0 (min 1 r) ∧ max 0 (min 1 r) ≤ 1 :=
  ⟨le_max_left 0 _, max_le zero_le_one (min_le_left 1 r)⟩

/-- C1: for every hping3 output string (including adversarial text) and every
    sent count, `parse_hping3` and `parse_hping3_rst` return a value in
    `[0, 1]`; when the sent count is `0` both return exactly `0` and the
    division is never executed (the code guards it with `sent_count > 0`). -/
theorem hping3_ratios_bounded (o : Option String) (s : ℤ) :
    (0 ≤ parse_hping3 o s ∧ parse_hping3 o s ≤ 1 ∧
     0 ≤ parse_hping3_rst o s ∧ parse_hping3_rst o s ≤ 1) ∧
    parse_hping3 o 0 = 0 ∧ parse_hping3_rst o 0 = 0 := by
  have hb1 : 0 ≤ parse_hping3 o s ∧ parse_hping3 o s ≤ 1 := by
    unfold parse_hping3
    rcases o with _ | str
    · exact ⟨le_refl 0, zero_le_one⟩
    · by_cases he : str.data.isEmpty
      · simp [he]
      · simp only [he, if_false]
        exact clamp_mem_unit _
  have hb2 : 0 ≤ parse_hping3_rst o s ∧ parse_hping3_rst o s ≤ 1 := by
    unfold parse_hping3_rst
    rcases o with _ | str
    · exact ⟨le_refl 0, zero_le_one⟩
    · by_cases he : str.data.isEmpty
      · simp [he]
      · simp only [he, if_false]
        exact clamp_mem_unit _
  have hz1 : parse_hping3 o 0 = 0 := by
    unfold parse_hping3
    rcases o with _ | str
    · rfl
    · by_cases he : str.data.isEmpty
      · simp [he]
      · simp [he]
  have hz2 : parse_hping3_rst o 0 = 0 := by
    unfold parse_hping3_rst
    rcases o with _ | str
    · rfl
    · by_cases he : str.data.isEmpty
      · simp [he]
      · simp [he]
  exact ⟨⟨hb1.1, hb1.2, hb2.1, hb2.2⟩, hz1, hz2⟩

/-! ## Probe executor (`run_command`) -/

/-- Outcome of one `subprocess.run` invocation: it can time out, raise, or
    complete with an exit code and the two captured streams. -/
inductive ProcResult where
  | timedOut : ProcResult
  | invokeError : ProcResult
  | completed (exitCode : ℤ) (stdout stderr : String) : ProcResult

/-- Embedding of `run_command`: `None` on timeout or invocation exception,
    stdout alone on exit code zero, stdout concatenated with stderr otherwise. -/
def run_command : ProcResult → Option String
  | .timedOut => none
  | .invokeError => none
  | .completed code out err => if code = 0 then some out else some (out ++ err)

/-- C2: the probe executor's three-way contract: timeout or invocation
    exception yields the absent sentinel, exit code zero yields stdout only,
    any nonzero exit code yields stdout concatenated with stderr. -/
theorem run_command_contract (out err : String) (code : ℤ) (hc : code ≠ 0) :
    run_command .timedOut = none ∧
    run_command .invokeError = none ∧
    run_command (.completed 0 out err) = some out ∧
    run_command (.completed code out err) = some (out ++ err) := by
  refine ⟨rfl, rfl, rfl, ?_⟩
  simp [run_command, hc]

theorem run_command_contract_witness :
    (1 : ℤ) ≠ 0 ∧ run_command (.completed 1 "out" "err") = some ("out" ++ "err") :=
  ⟨by decide, (run_command_contract "out" "err" 1 (by decide)).2.2.2⟩

/-! ## ICMP ping parser (`parse_ping`) -/

def icmpSeqLit : List Char := ['i', 'c', 'm', 'p', '_', 's', 'e', 'q', '=']
def packetLossLit : List Char := ['p', 'a', 'c', 'k', 'e', 't', ' ', 'l', 'o', 's', 's']
def rttLit : List Char := ['r', 't', 't']
def roundTripLit : List Char := ['r', 'o', 'u', 'n', 'd', '-', 't', 'r', 'i', 'p']

/-- Reply-marker test: `'bytes from' in output.lower() or 'icmp_seq=' in
    output.lower()`. -/
def hasReplyMarker (l : List Char) : Bool :=
  containsLit bytesFromLit (l.map Char.toLower) || containsLit icmpSeqLit (l.map Char.toLower)

/-- Does the text start with a match of `ttl=(\d+)` (IGNORECASE)? -/
def startsTTL : List Char → Bool
  | c0 :: c1 :: c2 :: c3 :: c4 :: _ =>
    (c0.toLower == 't') && (c1.toLower == 't') && (c2.toLower == 'l') &&
      (c3 == '=') && isDigitCh c4
  | _ => false

/-- `re.search` for `ttl=(\d+)` (IGNORECASE): the first match wins and the
    capture is the maximal digit run after the `=` (then `int()` is applied). -/
def findTTLAux : List Char → Option Nat
  | [] => none
  | c :: rest =>
    if startsTTL (c :: rest) then
      some (digitsToNat (List.takeWhile isDigitCh (List.drop 3 rest)))
    else findTTLAux rest

/-- Tail of the loss pattern: `\s+packet loss` (IGNORECASE). -/
def lossTail (l : List Char) : Bool :=
  !(List.takeWhile isPySpace l).isEmpty &&
    startsWithCI packetLossLit (List.drop (List.takeWhile isPySpace l).length l)

/-- One attempted match of `(\d+\.?\d*)%\s+packet loss` at a position: the
    character classes of consecutive pieces are disjoint, so the greedy parts
    are deterministic; the captured percentage is returned as a rational. -/
def searchLossMatch (l : List Char) : Option ℚ :=
  let r := List.takeWhile isDigitCh l
  if r.isEmpty then none
  else
    match List.drop r.length l with
    | '.' :: l2 =>
      let r2 := List.takeWhile isDigitCh l2
      (match List.drop r2.length l2 with
       | '%' :: l3 => if lossTail l3 then some (qOfDigits r r2) else none
       | _ => none)
    | '%' :: l3 => if lossTail l3 then some ((digitsToNat r : ℚ)) else none
    | _ => none

/-- `re.search` for the loss pattern: leftmost match, advancing one character
    on failure. -/
def searchLossAux : List Char → Option ℚ
  | [] => none
  | c :: rest =>
    match searchLossMatch (c :: rest) with
    | some q => some q
    | none => searchLossAux rest

/-- Attempt `\s*[\d.]+/([\d.]+)/` right after a matched `=` of the rtt
    patterns; returns the capture group. -/
def tryAfterEq (l : List Char) : Option (List Char) :=
  let l1 := List.dropWhile isPySpace l
  let r1 := List.takeWhile isDigDot l1
  if r1.isEmpty then none
  else
    match List.drop r1.length l1 with
    | '/' :: l2 =>
      let r2 := List.takeWhile isDigDot l2
      if r2.isEmpty then none
      else
        match List.drop r2.length l2 with
        | '/' :: _ => some r2
        | _ => none
    | _ => none

/-- The lazy `.*?=` of the rtt patterns: the candidate `=` characters of the
    current line are tried left to right (`.` does not cross a newline); the
    first one whose continuation completes wins. -/
def scanEqInLine : List Char → Option (List Char)
  | [] => none
  | c :: rest =>
    if c = '\n' then none
    else if c = '=' then
      match tryAfterEq rest with
      | some cap => some cap
      | none => scanEqInLine rest
    else scanEqInLine rest

/-- `re.search` for `pat.*?=\s*[\d.]+/([\d.]+)/` (IGNORECASE), with `pat` a
    lowercase literal: the leftmost starting position that completes wins. -/
def searchPatAux (pat : List Char) : List Char → Option (List Char)
  | [] => none
  | c :: rest =>
    if startsWithCI pat (c :: rest) then
      match scanEqInLine (List.drop pat.length (c :: rest)) with
      | some cap => some cap
      | none => searchPatAux pat rest
    else searchPatAux pat rest

/-- Python `float()` on a capture made only of digits and dots: defined exactly
    on `\d+(\.\d*)?` and `\.\d+`; anything else raises `ValueError` (`none`). -/
def pyFloatOfDigDot (l : List Char) : Option ℚ :=
  let r := List.takeWhile isDigitCh l
  match List.drop r.length l with
  | [] => if r.isEmpty then none else some ((digitsToNat r : ℚ))
  | '.' :: l2 =>
    let r2 := List.takeWhile isDigitCh l2
    if (List.drop r2.length l2).isEmpty then
      if r.isEmpty && r2.isEmpty then none else some (qOfDigits r r2)
    else none
  | _ => none

/-- The rtt-average extraction loop of `parse_ping`: the `rtt` dialect is tried
    first, then the `round-trip` dialect; `some none` means no pattern matched,
    and the outer `none` means `float()` raised on the capture. -/
def avgLatency (l : List Char) : Option (Option ℚ) :=
  match searchPatAux rttLit l with
  | some cap =>
    (match pyFloatOfDigDot cap with
     | some q => some (some q)
     | none => none)
  | none =>
    match searchPatAux roundTripLit l with
    | some cap =>
      (match pyFloatOfDigDot cap with
       | some q => some (some q)
       | none => none)
    | none => some none

/-- The feature map built by `parse_ping`; an unset value (`''`) is `none`. -/
structure PingFeatures where
  avg_latency : Option ℚ
  packet_loss : Option ℚ
  ttl_return : Option Nat
  icmp_reachable : Nat
deriving DecidableEq

/-- Embedding of `parse_ping`. The outer `Option` is `none` exactly when the
    Python function raises (a `float()` call on a malformed rtt capture); on a
    falsy input the initialized feature map is returned unchanged. -/
def parse_ping (output : Option String) : Option PingFeatures :=
  match output with
  | none => some ⟨none, none, none, 0⟩
  | some s =>
    if s.data.isEmpty then some ⟨none, none, none, 0⟩
    else
      match avgLatency s.data with
      | none => none
      | some avg =>
        some ⟨avg, searchLossAux s.data,
          if hasReplyMarker s.data then findTTLAux s.data else none,
          if hasReplyMarker s.data then 1 else 0⟩

/-- The exact two-line input of the scenario claim. -/
def pingScenario : String :=
  "5 packets transmitted, 5 received, 0% packet loss\nrtt min/avg/max/mdev = 1.0/2.345/3.0/0.5 ms"

/-- C3 counterexample: on the scenario input, `parse_ping` reports
    `icmp_reachable = 0`, not `1` as claimed — the two summary lines contain
    neither `bytes from` nor `icmp_seq=`, the only markers the code accepts. -/
theorem parse_ping_scenario_unreachable :
    Option.map PingFeatures.icmp_reachable (parse_ping (some pingScenario)) = some 0 := by
  decide

/-- C3 (amended): on the scenario input, `parse_ping` yields
    `packet_loss = 0.0`, `avg_latency = 2.345`, and `icmp_reachable = 0`
    (there is no reply marker in the two summary lines), with no TTL. -/
theorem parse_ping_scenario_eval :
    parse_ping (some pingScenario) = some ⟨some (2.345 : ℚ), some 0, none, 0⟩ := by
  have h1 : digitsToNat ['2'] = 2 := by decide
  have h2 : digitsToNat ['3', '4', '5'] = 345 := by decide
  have hq : qOfDigits ['2'] ['3', '4', '5'] = (2.345 : ℚ) := by
    unfold qOfDigits
    rw [h1, h2]
    norm_num
  have hz : ((digitsToNat ['0'] : ℚ)) = 0 := by decide
  have hstep : parse_ping (some pingScenario) =
      some ⟨some (qOfDigits ['2'] ['3', '4', '5']), some ((digitsToNat ['0'] : ℚ)),
        none, 0⟩ := by rfl
  rw [hstep, hq, hz]

/-- C10: in every feature map returned by `parse_ping`, a non-empty
    `ttl_return` implies `icmp_reachable = 1`: the TTL is extracted only inside
    the branch that has already detected a reply marker. -/
theorem ttl_implies_reachable (o : Option String) (r : PingFeatures)
    (hr : parse_ping o = some r) (ht : r.ttl_return ≠ none) :
    r.icmp_reachable = 1 := by
  rcases o with _ | s
  · simp only [parse_ping, Option.some.injEq] at hr
    subst hr
    simp at ht
  · simp only [parse_ping] at hr
    by_cases he : s.data.isEmpty = true
    · rw [if_pos he, Option.some.injEq] at hr
      subst hr
      simp at ht
    · rw [if_neg he] at hr
      rcases hav : avgLatency s.data with _ | avg
      · rw [hav] at hr
        exact Option.noConfusion hr
      · rw [hav, Option.some.injEq] at hr
        subst hr
        by_cases hm : hasReplyMarker s.data = true
        · simp [hm]
        · rw [Bool.not_eq_true] at hm
          simp [hm] at ht

/-! ## C4: TTL extraction -/

/-- No position inside the text starts a `ttl=` digit match (so a leftmost
    `re.search` for `ttl=(\d+)` skips past all of it). -/
def noTTLStart : List Char → Bool
  | [] => true
  | c :: rest => !startsTTL (c :: rest) && noTTLStart rest

/-- First character, if any, is not a digit. -/
def headNotDigit : List Char → Bool
  | [] => true
  | c :: _ => !isDigitCh c

/-- Appending text that itself begins with `ttl=` to a non-matching nonempty
    prefix cannot create a match at the prefix's head: a straddling occurrence
    would need a `t` of the suffix in a position the pattern forbids. -/
theorem startsTTL_append_false (l rs : List Char) (hl : l ≠ [])
    (h : startsTTL l = false) :
    startsTTL (l ++ ('t' :: 't' :: 'l' :: '=' :: rs)) = false := by
  match l with
  | [] => exact absurd rfl hl
  | [a] =>
    simp only [List.cons_append, List.nil_append, startsTTL,
      show (Char.toLower 't' == 'l') = false from rfl, Bool.and_false, Bool.false_and]
  | [a, b] =>
    simp only [List.cons_append, List.nil_append, startsTTL,
      show (Char.toLower 't' == 'l') = false from rfl, Bool.and_false, Bool.false_and]
  | [a, b, c] =>
    simp only [List.cons_append, List.nil_append, startsTTL,
      show (('t' : Char) == '=') = false from rfl, Bool.and_false, Bool.false_and]
  | [a, b, c, d] =>
    simp only [List.cons_append, List.nil_append, startsTTL,
      show isDigitCh 't' = false from rfl, Bool.and_false, Bool.false_and]
  | a :: b :: c :: d :: e :: tl =>
    simp only [List.cons_append, startsTTL] at h ⊢
    exact h

theorem findTTLAux_cons_false {c : Char} {l : List Char}
    (h : startsTTL (c :: l) = false) :
    findTTLAux (c :: l) = findTTLAux l := by
  simp [findTTLAux, h]

/-- Scanning for `ttl=` skips a prefix in which no match starts. -/
theorem findTTLAux_append (pre rs : List Char) (hpre : noTTLStart pre = true) :
    findTTLAux (pre ++ ('t' :: 't' :: 'l' :: '=' :: rs)) =
      findTTLAux ('t' :: 't' :: 'l' :: '=' :: rs) := by
  induction pre with
  | nil => rfl
  | cons c pre' ih =>
    simp only [noTTLStart, Bool.and_eq_true, Bool.not_eq_true'] at hpre
    have hfalse : startsTTL ((c :: pre') ++ ('t' :: 't' :: 'l' :: '=' :: rs)) = false :=
      startsTTL_append_false _ _ (by simp) hpre.1
    rw [List.cons_append] at hfalse ⊢
    rw [findTTLAux_cons_false hfalse]
    exact ih hpre.2

/-- At a position where `ttl=` is followed by a digit, the scan stops and
    captures the maximal digit run. -/
theorem findTTLAux_match (d : Char) (tl : List Char) (hd : isDigitCh d = true) :
    findTTLAux ('t' :: 't' :: 'l' :: '=' :: d :: tl) =
      some (digitsToNat (List.takeWhile isDigitCh (d :: tl))) := by
  have hs : startsTTL ('t' :: 't' :: 'l' :: '=' :: d :: tl) = true := by
    simp only [startsTTL]
    rw [hd]
    rfl
  simp [findTTLAux, hs]

/-- The maximal digit run of `ds ++ post` is exactly `ds` when `ds` is all
    digits and `post` does not begin with one. -/
theorem takeWhile_digits_append (ds post : List Char)
    (hds : ds.all isDigitCh = true) (hpost : headNotDigit post = true) :
    List.takeWhile isDigitCh (ds ++ post) = ds := by
  induction ds with
  | nil =>
    cases post with
    | nil => rfl
    | cons p ps =>
      simp only [headNotDigit, Bool.not_eq_true'] at hpost
      simp only [List.nil_append]
      rw [List.takeWhile_cons_of_neg (by simp [hpost])]
  | cons d ds' ih =>
    simp only [List.all_cons, Bool.and_eq_true] at hds
    rw [List.cons_append, List.takeWhile_cons_of_pos hds.1, ih hds.2]

/-- C4 (amended): the original claim fails on strings with no reply marker
    (see the counterexample); the statement that holds is: for every ping
    output of the form `pre ++ "ttl=" ++ ds ++ post` where no `ttl=` digit
    match starts inside `pre`, `ds` is a nonempty digit run of value
    N ∈ [1, 255] not continued by a digit of `post`, and the output contains a
    reply marker, every feature map `parse_ping` returns has
    `ttl_return = N`. -/
theorem parse_ping_ttl (pre ds post : List Char) (N : Nat)
    (_hN1 : 1 ≤ N) (_hN2 : N ≤ 255)
    (hds : ds.all isDigitCh = true) (hne : ds ≠ [])
    (hval : digitsToNat ds = N)
    (hpre : noTTLStart pre = true)
    (hpost : headNotDigit post = true)
    (hmark : hasReplyMarker (pre ++ ('t' :: 't' :: 'l' :: '=' :: (ds ++ post))) = true)
    (r : PingFeatures)
    (hr : parse_ping (some (String.mk (pre ++ ('t' :: 't' :: 'l' :: '=' :: (ds ++ post))))) =
      some r) :
    r.ttl_return = some N := by
  have hdata : (String.mk (pre ++ ('t' :: 't' :: 'l' :: '=' :: (ds ++ post)))).data =
      pre ++ ('t' :: 't' :: 'l' :: '=' :: (ds ++ post)) := rfl
  have hfne : pre ++ ('t' :: 't' :: 'l' :: '=' :: (ds ++ post)) ≠ [] := by
    intro hh
    rcases List.append_eq_nil.mp hh with ⟨-, h2⟩
    exact List.noConfusion h2
  simp only [parse_ping, hdata] at hr
  rw [if_neg (by simp [List.isEmpty_iff, hfne])] at hr
  rcases hav : avgLatency (pre ++ ('t' :: 't' :: 'l' :: '=' :: (ds ++ post))) with _ | avg
  · rw [hav] at hr
    exact Option.noConfusion hr
  · rw [hav, Option.some.injEq] at hr
    subst hr
    simp only [hmark, if_true]
    rcases ds with _ | ⟨d, ds'⟩
    · exact absurd rfl hne
    · simp only [List.all_cons, Bool.and_eq_true] at hds
      rw [findTTLAux_append pre _ hpre, List.cons_append, findTTLAux_match d _ hds.1,
        show d :: (ds' ++ post) = (d :: ds') ++ post from (List.cons_append d ds' post).symm,
        takeWhile_digits_append (d :: ds') post (by simp [List.all_cons, hds.1, hds.2]) hpost,
        hval]

/-- C4 counterexample: the string `ttl=64` contains the marker `ttl=64` with
    N = 64 ∈ [1, 255], yet `parse_ping` leaves `ttl_return` empty, because the
    string carries no reply marker and the TTL branch is never entered. -/
theorem parse_ping_ttl_counterexample :
    parse_ping (some "ttl=64") = some ⟨none, none, none, 0⟩ := by decide

theorem parse_ping_ttl_witness :
    noTTLStart ("64 bytes from 5.6.7.8: icmp_seq=1 ").data = true ∧
    (['6', '4'].all isDigitCh = true) ∧
    digitsToNat ['6', '4'] = 64 ∧
    headNotDigit (" time=1.2 ms").data = true ∧
    hasReplyMarker (("64 bytes from 5.6.7.8: icmp_seq=1 ").data ++
      ('t' :: 't' :: 'l' :: '=' :: (['6', '4'] ++ (" time=1.2 ms").data))) = true ∧
    parse_ping (some (String.mk (("64 bytes from 5.6.7.8: icmp_seq=1 ").data ++
      ('t' :: 't' :: 'l' :: '=' :: (['6', '4'] ++ (" time=1.2 ms").data))))) =
      some ⟨none, none, some 64, 1⟩ ∧
    (PingFeatures.mk none none (some 64) 1).ttl_return = some 64 :=
  ⟨by decide, by decide, by decide, by decide, by decide, by decide,
    parse_ping_ttl ("64 bytes from 5.6.7.8: icmp_seq=1 ").data ['6', '4']
      (" time=1.2 ms").data 64 (by decide) (by decide) (by decide) (by decide)
      (by decide) (by decide) (by decide) (by decide)
      ⟨none, none, some 64, 1⟩ (by decide)⟩

theorem ttl_implies_reachable_witness :
    parse_ping (some "64 bytes from 1.2.3.4: icmp_seq=1 ttl=64 time=0.5 ms") =
        some ⟨none, none, some 64, 1⟩ ∧
    (PingFeatures.mk none none (some 64) 1).ttl_return ≠ none ∧
    (PingFeatures.mk none none (some 64) 1).icmp_reachable = 1 :=
  ⟨by decide, by decide,
    ttl_implies_reachable (some "64 bytes from 1.2.3.4: icmp_seq=1 ttl=64 time=0.5 ms")
      ⟨none, none, some 64, 1⟩ (by decide) (by decide)⟩

/-! ## C5: the large-packet packet-loss override in `collect_features` -/

/-- Python truthiness of a `packet_loss` slot: `''` (here `none`) and the
    float `0.0` are both falsy. -/
def truthyQ : Option ℚ → Bool
  | none => false
  | some q => !(q == 0)

/-- The float carried by a slot (only consulted after `truthyQ` succeeded, as
    the short-circuiting `and`/`or` of the source guarantees). -/
def qOfOpt : Option ℚ → ℚ
  | none => 0
  | some q => q

/-- The override condition of `collect_features`:
    `if large and (not first or large > first): first = large`. -/
def mergePL (first large : Option ℚ) : Option ℚ :=
  if truthyQ large && (!truthyQ first || decide (qOfOpt large > qOfOpt first)) then large
  else first

/-- Modelled from the amended claim's words: the second ping's value replaces
    the first exactly when it is present and nonzero and either the first is
    empty or zero or the second is strictly greater; a parsed `0.0` never
    fills or overrides anything. -/
def mergePLSpec (first large : Option ℚ) : Option ℚ :=
  match large with
  | none => first
  | some q =>
    if q = 0 then first
    else
      match first with
      | none => some q
      | some p => if p = 0 ∨ q > p then some q else first

/-- The two ping phases of `collect_features` restricted to the `packet_loss`
    field: parse the first ping, and if the large-packet output is truthy,
    parse it and apply the override; the outer `none` is a raised exception. -/
def collectPacketLoss (pingOut pingLargeOut : Option String) : Option (Option ℚ) :=
  match parse_ping pingOut with
  | none => none
  | some f =>
    match pingLargeOut with
    | none => some f.packet_loss
    | some s =>
      if s.data.isEmpty then some f.packet_loss
      else
        match parse_ping (some s) with
        | none => none
        | some lf => some (mergePL f.packet_loss lf.packet_loss)

theorem mergePL_eq_spec (first large : Option ℚ) :
    mergePL first large = mergePLSpec first large := by
  rcases large with _ | q
  · simp [mergePL, mergePLSpec, truthyQ]
  · rcases first with _ | p
    · by_cases hq : q = 0
      · simp [mergePL, mergePLSpec, truthyQ, hq]
      · simp [mergePL, mergePLSpec, truthyQ, hq]
    · by_cases hq : q = 0
      · simp [mergePL, mergePLSpec, truthyQ, hq]
      · by_cases hp : p = 0
        · simp [mergePL, mergePLSpec, truthyQ, qOfOpt, hq, hp]
        · by_cases hgt : q > p
          · simp [mergePL, mergePLSpec, truthyQ, qOfOpt, hq, hp, hgt]
          · simp [mergePL, mergePLSpec, truthyQ, qOfOpt, hq, hp, hgt]

/-- C5 (amended): after the two ping phases, the large-packet value replaces
    (or fills) the first exactly when it is parsed and nonzero and either the
    first value is empty or zero or the new value is strictly greater; in
    particular a parsed `0.0` never fills an empty first value (Python
    truthiness treats `0.0` as absent). -/
theorem collect_packet_loss_merge (pingOut : Option String) (s : String)
    (f lf : PingFeatures)
    (hs : s.data.isEmpty = false)
    (hf : parse_ping pingOut = some f) (hlf : parse_ping (some s) = some lf) :
    collectPacketLoss pingOut (some s) = some (mergePLSpec f.packet_loss lf.packet_loss) := by
  unfold collectPacketLoss
  rw [hf]
  simp only [hs, Bool.false_eq_true, if_false]
  rw [hlf]
  show some (mergePL f.packet_loss lf.packet_loss) = _
  rw [mergePL_eq_spec]

/-- C5 counterexample: the first ping parses no packet loss (empty), the
    large-packet ping parses `0.0`, and the claim says the value always fills
    the empty slot — but the code leaves it empty, because `0.0` is falsy. -/
theorem collect_packet_loss_counterexample :
    collectPacketLoss (some "x")
      (some "5 packets transmitted, 0 received, 0% packet loss") = some none := by
  decide

theorem collect_packet_loss_witness :
    (("5 packets transmitted, 5 received, 13% packet loss" : String)).data.isEmpty = false ∧
    parse_ping (some "x") = some ⟨none, none, none, 0⟩ ∧
    parse_ping (some "5 packets transmitted, 5 received, 13% packet loss") =
      some ⟨none, some ((digitsToNat ['1', '3'] : ℚ)), none, 0⟩ ∧
    collectPacketLoss (some "x")
        (some "5 packets transmitted, 5 received, 13% packet loss") =
      some (mergePLSpec none (some ((digitsToNat ['1', '3'] : ℚ)))) :=
  ⟨by decide, by decide, by decide,
    collect_packet_loss_merge (some "x")
      "5 packets transmitted, 5 received, 13% packet loss"
      ⟨none, none, none, 0⟩ ⟨none, some ((digitsToNat ['1', '3'] : ℚ)), none, 0⟩
      (by decide) (by decide) (by decide)⟩

/-! ## Dataset writer (`write_csv`) and the row schema -/

/-- A Python value that can sit in a feature dict. -/
inductive PyVal where
  | pyNone : PyVal
  | pyStr (s : String) : PyVal
  | pyInt (n : ℤ) : PyVal
  | pyFloat (q : ℚ) : PyVal
deriving DecidableEq

/-- A feature dict, with the lookup of `dict.get` (keys are unique in the
    dicts the pipeline builds; lookup returns the first binding). -/
abbrev Row := List (String × PyVal)

def rowGet : Row → String → Option PyVal
  | [], _ => none
  | (k, v) :: rest, key => if k = key then some v else rowGet rest key

/-- `FEATURE_COLUMNS`: the 13 fixed columns, in their exact order. -/
def FEATURE_COLUMNS : List String :=
  ["timestamp", "host", "avg_latency", "packet_loss", "ttl_return", "icmp_reachable",
   "filtered_ports_count", "scan_time", "syn_ack_ratio", "tcp_reset_ratio",
   "response_time", "header_modified", "firewall_label"]

/-- One serialized cell:
    `row.get(col, '') if row.get(col, '') != '' and row.get(col) is not None else ''`. -/
def cellOf (row : Row) (col : String) : PyVal :=
  match rowGet row col with
  | none => .pyStr ""
  | some v => if v = .pyStr "" then .pyStr "" else if v = .pyNone then .pyStr "" else v

/-- A serialized data line: the full fixed column list is always used. -/
def serializeRow (row : Row) : List PyVal := FEATURE_COLUMNS.map (cellOf row)

/-- The header line emitted by `DictWriter.writeheader`. -/
def headerCells : List PyVal := FEATURE_COLUMNS.map PyVal.pyStr

/-- A CSV file as a list of lines, each a list of cells. -/
abbrev CSVFile := List (List PyVal)

/-- Embedding of `write_csv`: `fs` is the current file contents (`none` when
    the file does not exist); mode `'a'` keeps them and mode `'w'` truncates;
    the header is written exactly when not appending to an existing file. -/
def write_csv (data : List Row) (fs : Option CSVFile) (append : Bool) : CSVFile :=
  (if append && fs.isSome then fs.getD [] else []) ++
    (if !(append && fs.isSome) then [headerCells] else []) ++ data.map serializeRow

/-- C6: writing batch 1 with `append = false` and then batch 2 with
    `append = true` to the same path yields one header line followed by the
    two batches' data rows (`2 × hostCount` rows for equal-sized batches);
    in general the file is (re)created with a header exactly when `append` is
    false or the file does not exist, and otherwise rows are appended with no
    header. -/
theorem write_csv_append_semantics (b1 b2 : List Row) (n : Nat) (f0 : Option CSVFile)
    (h1 : b1.length = n) (h2 : b2.length = n) :
    write_csv b2 (some (write_csv b1 f0 false)) true =
      headerCells :: (b1.map serializeRow ++ b2.map serializeRow) ∧
    (write_csv b2 (some (write_csv b1 f0 false)) true).length = 1 + 2 * n ∧
    (∀ data fs, write_csv data fs false = headerCells :: data.map serializeRow) ∧
    (∀ data, write_csv data none true = headerCells :: data.map serializeRow) ∧
    (∀ data c, write_csv data (some c) true = c ++ data.map serializeRow) := by
  have hw : ∀ data fs, write_csv data fs false = headerCells :: data.map serializeRow := by
    intro data fs
    simp [write_csv]
  have hn : ∀ data, write_csv data none true = headerCells :: data.map serializeRow := by
    intro data
    simp [write_csv]
  have ha : ∀ data c, write_csv data (some c) true = c ++ data.map serializeRow := by
    intro data c
    simp [write_csv]
  have hseq : write_csv b2 (some (write_csv b1 f0 false)) true =
      headerCells :: (b1.map serializeRow ++ b2.map serializeRow) := by
    rw [ha, hw]
    simp
  refine ⟨hseq, ?_, hw, hn, ha⟩
  rw [hseq]
  simp only [List.length_cons, List.length_append, List.length_map, h1, h2]
  omega

theorem write_csv_append_semantics_witness :
    write_csv [[("host", PyVal.pyStr "a")]]
        (some (write_csv [[("host", PyVal.pyStr "a")]] none false)) true =
      headerCells :: ([[("host", PyVal.pyStr "a")]].map serializeRow ++
        [[("host", PyVal.pyStr "a")]].map serializeRow) ∧
    (write_csv [[("host", PyVal.pyStr "a")]]
        (some (write_csv [[("host", PyVal.pyStr "a")]] none false)) true).length = 1 + 2 * 1 :=
  ⟨(write_csv_append_semantics [[("host", PyVal.pyStr "a")]] [[("host", PyVal.pyStr "a")]]
      1 none rfl rfl).1,
   (write_csv_append_semantics [[("host", PyVal.pyStr "a")]] [[("host", PyVal.pyStr "a")]]
      1 none rfl rfl).2.1⟩

/-- C7: every serialized row has exactly the 13 fixed columns in the fixed
    order, and a column unset in the dict (missing, empty string, or None)
    serializes as the empty value — never a `null`/`nan` token. -/
theorem serialize_row_schema (row : Row) (col : String)
    (hunset : rowGet row col = none ∨ rowGet row col = some (.pyStr "") ∨
      rowGet row col = some .pyNone) :
    (serializeRow row).length = 13 ∧
    serializeRow row = FEATURE_COLUMNS.map (cellOf row) ∧
    cellOf row col = .pyStr "" ∧
    cellOf row col ≠ .pyStr "null" ∧ cellOf row col ≠ .pyStr "nan" := by
  have hc : cellOf row col = .pyStr "" := by
    rcases hunset with h | h | h
    · simp [cellOf, h]
    · simp [cellOf, h]
    · simp [cellOf, h]
  refine ⟨by simp [serializeRow, FEATURE_COLUMNS], rfl, hc, ?_, ?_⟩
  · rw [hc]
    intro hh
    exact absurd (PyVal.pyStr.inj hh) (by decide)
  · rw [hc]
    intro hh
    exact absurd (PyVal.pyStr.inj hh) (by decide)

theorem serialize_row_schema_witness :
    rowGet [("timestamp", PyVal.pyInt 1700000000), ("host", PyVal.pyStr "1.2.3.4"),
        ("avg_latency", PyVal.pyStr "")] "avg_latency" = some (.pyStr "") ∧
    (serializeRow [("timestamp", PyVal.pyInt 1700000000), ("host", PyVal.pyStr "1.2.3.4"),
        ("avg_latency", PyVal.pyStr "")]).length = 13 ∧
    cellOf [("timestamp", PyVal.pyInt 1700000000), ("host", PyVal.pyStr "1.2.3.4"),
        ("avg_latency", PyVal.pyStr "")] "avg_latency" = .pyStr "" :=
  ⟨by decide,
   (serialize_row_schema [("timestamp", PyVal.pyInt 1700000000), ("host", PyVal.pyStr "1.2.3.4"),
      ("avg_latency", PyVal.pyStr "")] "avg_latency" (Or.inr (Or.inl (by decide)))).1,
   (serialize_row_schema [("timestamp", PyVal.pyInt 1700000000), ("host", PyVal.pyStr "1.2.3.4"),
      ("avg_latency", PyVal.pyStr "")] "avg_latency" (Or.inr (Or.inl (by decide)))).2.2.1⟩

/-! ## Collection orchestrator: per-host failure isolation -/

/-- The sequential collection loop of `main`: each host is tried under
    `try/except`; a success appends the row, a failure logs the host and
    moves on. Returns (collected rows, logged failed hosts), both in
    processing order. -/
def runSequential (collect : String → Except String Row) :
    List String → List Row × List String
  | [] => ([], [])
  | ip :: rest =>
    match collect ip, runSequential collect rest with
    | .ok r, (rs, es) => (r :: rs, es)
    | .error _, (rs, es) => (rs, ip :: es)

/-- The worker-pool mode of `main`: one future per host, results consumed via
    `as_completed` in completion order — some permutation of the submitted
    list — each `future.result()` guarded by the same try/except. -/
def runPool (collect : String → Except String Row) (completionOrder : List String) :
    List Row × List String :=
  runSequential collect completionOrder

theorem runSequential_allOk (collect : String → Except String Row) (l : List String)
    (hok : ∀ ip ∈ l, ∃ r, collect ip = .ok r) :
    (runSequential collect l).1.length = l.length ∧ (runSequential collect l).2 = [] := by
  induction l with
  | nil => exact ⟨rfl, rfl⟩
  | cons a rest ih =>
    obtain ⟨r, hr⟩ := hok a (List.mem_cons_self a rest)
    have hih := ih (fun ip hip => hok ip (List.mem_cons_of_mem a hip))
    rcases hrec : runSequential collect rest with ⟨rs, es⟩
    rw [hrec] at hih
    simp only [runSequential, hr, hrec]
    simp only [List.length_cons]
    exact ⟨by rw [hih.1.symm], hih.2⟩

theorem runSequential_spec (collect : String → Except String Row) (l : List String)
    (bad : String) (hnd : l.Nodup) (hmem : bad ∈ l)
    (hbad : ∃ e, collect bad = .error e)
    (hok : ∀ ip ∈ l, ip ≠ bad → ∃ r, collect ip = .ok r) :
    (runSequential collect l).1.length = l.length - 1 ∧
    bad ∈ (runSequential collect l).2 := by
  induction l with
  | nil => cases hmem
  | cons a rest ih =>
    rcases List.nodup_cons.mp hnd with ⟨hna, hndr⟩
    rcases List.mem_cons.mp hmem with hba | hmem'
    · subst hba
      obtain ⟨e, he⟩ := hbad
      have hallok : ∀ ip ∈ rest, ∃ r, collect ip = .ok r := by
        intro ip hip
        exact hok ip (List.mem_cons_of_mem bad hip) (fun hh => hna (hh ▸ hip))
      have hall := runSequential_allOk collect rest hallok
      rcases hrec : runSequential collect rest with ⟨rs, es⟩
      rw [hrec] at hall
      simp only [runSequential, he, hrec]
      exact ⟨by simp [hall.1], by simp⟩
    · have hane : a ≠ bad := fun hh => hna (hh ▸ hmem')
      obtain ⟨r, hr⟩ := hok a (List.mem_cons_self a rest) hane
      have hih := ih hndr hmem' (fun ip hip hne => hok ip (List.mem_cons_of_mem a hip) hne)
      rcases hrec : runSequential collect rest with ⟨rs, es⟩
      rw [hrec] at hih
      dsimp only at hih
      obtain ⟨hih1, hih2⟩ := hih
      have hrest : 0 < rest.length := List.length_pos.mpr (List.ne_nil_of_mem hmem')
      simp only [runSequential, hr, hrec]
      constructor
      · simp only [List.length_cons]
        omega
      · exact hih2

/-- C8: in a batch of N hosts in which exactly one host's collection raises,
    both execution modes still produce N−1 rows, log the failed host, and omit
    only its row; in pool mode this holds for every completion order. -/
theorem batch_isolates_failures (collect : String → Except String Row)
    (targets : List String) (bad : String)
    (hnd : targets.Nodup) (hmem : bad ∈ targets)
    (hbad : ∃ e, collect bad = .error e)
    (hok : ∀ ip ∈ targets, ip ≠ bad → ∃ r, collect ip = .ok r) :
    ((runSequential collect targets).1.length = targets.length - 1 ∧
      bad ∈ (runSequential collect targets).2) ∧
    ∀ order, order.Perm targets →
      (runPool collect order).1.length = targets.length - 1 ∧
      bad ∈ (runPool collect order).2 := by
  refine ⟨runSequential_spec collect targets bad hnd hmem hbad hok, fun order hperm => ?_⟩
  have hspec := runSequential_spec collect order bad (hperm.symm.nodup hnd)
    (hperm.mem_iff.mpr hmem) hbad
    (fun ip hip hne => hok ip (hperm.subset hip) hne)
  rw [hperm.length_eq] at hspec
  exact hspec

def collectW : String → Except String Row := fun ip =>
  if ip = "10.0.0.2" then .error "boom" else .ok [("host", .pyStr ip)]

theorem batch_isolates_failures_witness :
    (["10.0.0.1", "10.0.0.2", "10.0.0.3"] : List String).Nodup ∧
    ("10.0.0.2" : String) ∈ ["10.0.0.1", "10.0.0.2", "10.0.0.3"] ∧
    collectW "10.0.0.2" = .error "boom" ∧
    (runSequential collectW ["10.0.0.1", "10.0.0.2", "10.0.0.3"]).1.length = 2 ∧
    "10.0.0.2" ∈ (runSequential collectW ["10.0.0.1", "10.0.0.2", "10.0.0.3"]).2 ∧
    (runPool collectW ["10.0.0.3", "10.0.0.2", "10.0.0.1"]).1.length = 2 ∧
    "10.0.0.2" ∈ (runPool collectW ["10.0.0.3", "10.0.0.2", "10.0.0.1"]).2 := by
  have hok : ∀ ip ∈ (["10.0.0.1", "10.0.0.2", "10.0.0.3"] : List String),
      ip ≠ "10.0.0.2" → ∃ r, collectW ip = .ok r := by
    intro ip _ hne
    refine ⟨[("host", PyVal.pyStr ip)], ?_⟩
    show (if ip = "10.0.0.2" then (Except.error "boom" : Except String Row)
      else Except.ok [("host", PyVal.pyStr ip)]) = Except.ok [("host", PyVal.pyStr ip)]
    rw [if_neg hne]
  have happ := batch_isolates_failures collectW ["10.0.0.1", "10.0.0.2", "10.0.0.3"]
    "10.0.0.2" (by decide) (by decide) ⟨"boom", rfl⟩ hok
  have hpool := happ.2 ["10.0.0.3", "10.0.0.2", "10.0.0.1"] (by decide)
  exact ⟨by decide, by decide, rfl, happ.1.1, happ.1.2, hpool.1, hpool.2⟩

/-! ## C9: what the RST counter actually counts -/

theorem takeWhile_all_eq (p : Char → Bool) (l : List Char) (h : ∀ c ∈ l, p c = true) :
    List.takeWhile p l = l := by
  induction l with
  | nil => rfl
  | cons c rest ih =>
    rw [List.takeWhile_cons_of_pos (h c (List.mem_cons_self c rest)),
      ih (fun x hx => h x (List.mem_cons_of_mem c hx))]

theorem afterLastR_none_of_no_r (l : List Char) (h : ∀ c ∈ l, isRChar c = false) :
    afterLastR l = none := by
  induction l with
  | nil => rfl
  | cons c rest ih =>
    have hr := ih (fun x hx => h x (List.mem_cons_of_mem c hx))
    have hc := h c (List.mem_cons_self c rest)
    unfold afterLastR
    rw [hr]
    simp only
    rw [if_neg (by simp [hc])]

theorem no_r_of_afterLastR_none (l : List Char) (h : afterLastR l = none) :
    ∀ c ∈ l, isRChar c = false := by
  induction l with
  | nil => intro c hc; cases hc
  | cons c rest ih =>
    unfold afterLastR at h
    rcases ha : afterLastR rest with _ | r
    · rw [ha] at h
      simp only at h
      by_cases hc : isRChar c = true
      · rw [if_pos hc] at h
        exact Option.noConfusion h
      · intro x hx
        rcases List.mem_cons.mp hx with rfl | hx'
        · exact Bool.not_eq_true _ ▸ Bool.of_not_eq_true hc
        · exact ih ha x hx'
    · rw [ha] at h
      exact Option.noConfusion h

theorem afterLastR_some_no_r (l rem : List Char) (h : afterLastR l = some rem) :
    ∀ c ∈ rem, isRChar c = false := by
  induction l with
  | nil => exact Option.noConfusion h
  | cons c rest ih =>
    unfold afterLastR at h
    rcases ha : afterLastR rest with _ | r
    · rw [ha] at h
      simp only at h
      by_cases hc : isRChar c = true
      · rw [if_pos hc, Option.some.injEq] at h
        subst h
        exact no_r_of_afterLastR_none rest ha
      · rw [if_neg hc] at h
        exact Option.noConfusion h
    · rw [ha, Option.some.injEq] at h
      subst h
      exact ih ha

/-- Text with no `r`/`R` at all contains no `flags=.*R` match. -/
theorem countFlagsRAux_no_r (l : List Char) (h : ∀ c ∈ l, isRChar c = false) :
    countFlagsRAux l = 0 := by
  induction l with
  | nil => simp [countFlagsRAux]
  | cons c rest ih =>
    have hrest : ∀ x ∈ rest, isRChar x = false :=
      fun x hx => h x (List.mem_cons_of_mem c hx)
    have hih := ih hrest
    unfold countFlagsRAux
    split_ifs with hs
    · have hnone : afterLastR
          (List.takeWhile (fun ch => !(ch == '\n')) (List.drop 5 rest)) = none := by
        refine afterLastR_none_of_no_r _ (fun x hx => ?_)
        have hx1 : x ∈ List.drop 5 rest := (List.takeWhile_sublist _).subset hx
        exact hrest x (List.drop_subset 5 rest hx1)
      split
      · next rem heq => rw [hnone] at heq; exact Option.noConfusion heq
      · exact hih
    · exact hih

/-- C9 (amended): on a single probe line `flags=<rest>` (no newline in
    `<rest>`), the RST counter counts 1 exactly when ANY `r`/`R` appears in
    `<rest>`, not merely when the flag field carries an R: a `flags=SA` line
    followed by an `rtt=` field does contribute to the count. -/
theorem countFlagsR_single_line (rest : List Char) (hnl : ('\n' : Char) ∉ rest) :
    countFlagsRAux (flagsLit ++ rest) = (if rest.any isRChar then 1 else 0) := by
  have hline : List.takeWhile (fun ch => !(ch == '\n')) rest = rest :=
    takeWhile_all_eq _ _ (fun c hc => by
      have hcne : c ≠ '\n' := fun hh => hnl (hh ▸ hc)
      simp [hcne])
  have hstart : startsWithCI flagsLit
      ('f' :: 'l' :: 'a' :: 'g' :: 's' :: '=' :: rest) = true := rfl
  show countFlagsRAux ('f' :: 'l' :: 'a' :: 'g' :: 's' :: '=' :: rest) = _
  unfold countFlagsRAux
  rw [if_pos hstart]
  have hdrop : List.drop 5 ('l' :: 'a' :: 'g' :: 's' :: '=' :: rest) = rest := rfl
  rw [hdrop, hline]
  by_cases hany : rest.any isRChar = true
  · rw [if_pos hany]
    rcases List.any_eq_true.mp hany with ⟨x, hx, hrx⟩
    rcases ha : afterLastR rest with _ | rem
    · exact absurd hrx (by simp [no_r_of_afterLastR_none rest ha x hx])
    · split
      · next rem' heq =>
          injection heq with heq'
          subst heq'
          rw [List.drop_length, List.append_nil,
            countFlagsRAux_no_r rem (afterLastR_some_no_r rest rem ha)]
      · next heq => exact Option.noConfusion heq
  · rw [if_neg hany]
    have hnor : ∀ c ∈ rest, isRChar c = false := by
      intro c hc
      by_cases hrc : isRChar c = true
      · exact absurd (List.any_eq_true.mpr ⟨c, hc, hrc⟩) hany
      · exact Bool.of_not_eq_true hrc
    rcases ha : afterLastR rest with _ | rem
    · split
      · next rem' heq => exact Option.noConfusion heq
      · next heq =>
          refine countFlagsRAux_no_r _ (fun c hc => ?_)
          rcases List.mem_cons.mp hc with rfl | hc1
          · rfl
          · rcases List.mem_cons.mp hc1 with rfl | hc2
            · rfl
            · rcases List.mem_cons.mp hc2 with rfl | hc3
              · rfl
              · rcases List.mem_cons.mp hc3 with rfl | hc4
                · rfl
                · rcases List.mem_cons.mp hc4 with rfl | hc5
                  · rfl
                  · exact hnor c hc5
    · exact absurd ha (by
        rw [afterLastR_none_of_no_r rest hnor]
        exact fun hh => Option.noConfusion hh)

/-- C9 (amended), at the `parse_hping3_rst` level: for a single-line output
    `flags=<rest>` with 5 probes sent, the RST ratio is 1/5 exactly when any
    `r`/`R` occurs after `flags=` on the line, and 0 otherwise. -/
theorem parse_hping3_rst_line (rest : List Char) (hnl : ('\n' : Char) ∉ rest) :
    parse_hping3_rst (some (String.mk (flagsLit ++ rest))) 5 =
      (if rest.any isRChar then (1 : ℚ) / 5 else 0) := by
  have hcount := countFlagsR_single_line rest hnl
  have hstep : parse_hping3_rst (some (String.mk (flagsLit ++ rest))) 5 =
      max 0 (min 1 ((countFlagsRAux (flagsLit ++ rest) : ℚ) / ((5 : ℤ) : ℚ))) := rfl
  rw [hstep, hcount]
  by_cases hany : rest.any isRChar = true
  · rw [if_pos hany, if_pos hany]
    push_cast
    norm_num
  · rw [if_neg hany, if_neg hany]
    push_cast
    norm_num

/-- C9 counterexample: the single line `flags=SA rtt=0.3 ms` has a flag field
    with no R, so by the claim it must not contribute; the code still counts
    it (the `r` of `rtt` matches `flags=.*R` under IGNORECASE), giving a
    nonzero ratio. -/
theorem parse_hping3_rst_counterexample :
    parse_hping3_rst (some "flags=SA rtt=0.3 ms") 5 ≠ 0 := by
  have h1 : countFlagsRAux (flagsLit ++ ("SA rtt=0.3 ms").data) = 1 := by
    rw [countFlagsR_single_line ("SA rtt=0.3 ms").data (by decide)]
    rw [if_pos (by decide)]
  have hstep : parse_hping3_rst (some "flags=SA rtt=0.3 ms") 5 =
      max 0 (min 1 ((countFlagsRAux (flagsLit ++ ("SA rtt=0.3 ms").data) : ℚ) /
        ((5 : ℤ) : ℚ))) := rfl
  rw [hstep, h1]
  push_cast
  norm_num

theorem parse_hping3_rst_line_witness :
    (('\n' : Char) ∉ ("SA rtt=0.3 ms").data) ∧
    parse_hping3_rst (some (String.mk (flagsLit ++ ("SA rtt=0.3 ms").data))) 5 =
      (if ("SA rtt=0.3 ms").data.any isRChar then (1 : ℚ) / 5 else 0) :=
  ⟨by decide, parse_hping3_rst_line ("SA rtt=0.3 ms").data (by decide)⟩

end DataCollector
